import Mathlib

/-!
Verification of the sequence-matching / edit-alignment core of googletest-rust.

Shallow embedding of:
* `src/googletest/src/matcher_support/edit_distance.rs` — the Wagner–Fischer
  style edit-alignment engine `edit_list`, the `Edit<T>` variants, the
  `Distance` trait with its `char` and `&str` implementations;
* `src/googletest/src/matchers/elements_are_matcher.rs` — the `ElementsAre`
  sequence matcher (`matches` and `explain_match`).

Modelling conventions:
* `f64` costs are modelled as `ℚ`.  All costs actually produced by the code
  are sums of distance values and small integers, and the algorithm only uses
  `+`, `min` and order comparisons on them, so `ℚ` is a faithful embedding
  (there is no NaN: `partial_cmp(..).unwrap()` never panics on these values).
* Rust panics are modelled with `Option`: `edit_list` returns `none` exactly
  when the Rust function panics.  The Rust code evaluates `left[0]` for the
  placeholder stored in table cell (0,0) before any loop runs, so it panics
  whenever `left` is empty (index out of bounds on an empty `Vec`).
* The dense `Table` filled by `push` in row-major order (the row index is the
  second coordinate `idy`) is modelled by the function `cell`: the code fills
  cell (i,j) only from cells pushed strictly earlier — (i-1,j), (i,j-1) and
  (i-1,j-1) — so the fill loop is exactly the structural recursion below.
-/

namespace GoogletestRust

/-- `Edit<T>` from edit_distance.rs: an edit operation on two sequences. -/
inductive Edit (T : Type) where
  /-- An extra `T` was added to the left sequence. -/
  | extraLeft (left : T)
  /-- An extra `T` was added to the right sequence. -/
  | extraRight (right : T)
  /-- An element was added to each sequence, with their recorded distance. -/
  | both (left : T) (right : T) (distance : ℚ)
  deriving DecidableEq

/-- The `Distance` trait from edit_distance.rs. -/
class Distance (T : Type) where
  distance : T → T → ℚ

/-- `impl Distance for char`: 0 if the characters are equal, otherwise 1. -/
instance charDistance : Distance Char where
  distance left right := if left = right then 0 else 1

/-- The table element of the alignment table: cost plus the edit recorded to
reach this cell. -/
structure TableElement (T : Type) where
  cost : ℚ
  last_edit : Edit T
  deriving DecidableEq

/-- One step of Rust's `Iterator::min_by` fold (`core::cmp::min_by`): the
second argument is taken only when the first compares strictly greater, so
on ties the earlier element wins. -/
def minBy2 {T : Type} (a b : TableElement T) : TableElement T :=
  if a.cost > b.cost then b else a

/-- `[extra_left, extra_right, both].into_iter().min_by(..)` from
edit_distance.rs, line 67-72: a left fold of `minBy2`, so the first minimum
in the order delete-then-insert-then-align wins. -/
def minBy3 {T : Type} (a b c : TableElement T) : TableElement T :=
  minBy2 (minBy2 a b) c

/-- Row `j = 0` of the alignment table (the first `for idx` loop, lines
34-45): cell (0,0) costs 0 and stores the placeholder `ExtraLeft {left:
left[0]}` (`l0`); cell (i,0) costs `i` and stores `ExtraLeft {left:
left[i-1]}`. `l0` is also used as the (never needed in range) `getD`
default. -/
def baseRow {T : Type} (l0 : T) (left : List T) : Nat → TableElement T
  | 0 => ⟨0, Edit.extraLeft l0⟩
  | i + 1 => ⟨(i : ℚ) + 1, Edit.extraLeft (left.getD i l0)⟩

/-- The inner `for idx` loop (lines 51-73) computing row `j+1` of the table
from row `j` (`prev`): cell (0,j+1) costs `j+1` and stores `ExtraRight`;
cell (i+1,j+1) is the first minimum of the three candidates delete /
insert / align, in that order. -/
def buildRow {T : Type} [Distance T] (l0 : T) (left right : List T)
    (prev : Nat → TableElement T) (j : Nat) : Nat → TableElement T
  | 0 => ⟨(j : ℚ) + 1, Edit.extraRight (right.getD j l0)⟩
  | i + 1 =>
    let left_element := left.getD i l0
    let right_element := right.getD j l0
    let extra_left : TableElement T :=
      ⟨1 + (buildRow l0 left right prev j i).cost, Edit.extraLeft left_element⟩
    let extra_right : TableElement T :=
      ⟨1 + (prev (i + 1)).cost, Edit.extraRight right_element⟩
    let d := Distance.distance left_element right_element
    let both : TableElement T :=
      ⟨d + (prev i).cost, Edit.both left_element right_element d⟩
    minBy3 extra_left extra_right both

/-- The outer `for idy` loop (lines 46-74): row 0 is the base row, row `j+1`
is built from row `j`. -/
def tableRow {T : Type} [Distance T] (l0 : T) (left right : List T) :
    Nat → Nat → TableElement T
  | 0 => baseRow l0 left
  | j + 1 => buildRow l0 left right (tableRow l0 left right j) j

/-- The alignment table: `cell l0 left right i j` is `table[(i, j)]` after the
fill loops of `edit_list` have run (with `l0 = left[0]`, the placeholder). -/
def cell {T : Type} [Distance T] (l0 : T) (left right : List T) (i j : Nat) :
    TableElement T :=
  tableRow l0 left right j i

/-- The traceback `while current != (0, 0)` loop of `edit_list` (lines 75-85),
producing the path in push order (from cell (i,j) back towards (0,0); the
caller reverses it).  The loop moves one step per iteration, so `fuel ≥ i + j`
steps always suffice; the fuel-out branch is unreachable for the tables the
fill loops build. -/
def pathAux {T : Type} [Distance T] (l0 : T) (left right : List T) :
    Nat → Nat → Nat → List (Edit T)
  | 0, _, _ => []
  | fuel + 1, i, j =>
    if i = 0 ∧ j = 0 then []
    else
      match (cell l0 left right i j).last_edit with
      | Edit.extraLeft l => Edit.extraLeft l :: pathAux l0 left right fuel (i - 1) j
      | Edit.extraRight r => Edit.extraRight r :: pathAux l0 left right fuel i (j - 1)
      | Edit.both l r d => Edit.both l r d :: pathAux l0 left right fuel (i - 1) (j - 1)

/-- `edit_list` from edit_distance.rs.  `none` models the Rust panic: the
placeholder pushed for cell (0,0) evaluates `left[0]`, which is an
out-of-bounds index whenever `left` is empty.  Otherwise the table is filled,
the traceback path is collected from `(left.len(), right.len())` and
reversed. -/
def edit_list {T : Type} [Distance T] : List T → List T → Option (List (Edit T))
  | [], _ => none
  | l0 :: rest, right =>
    some ((pathAux l0 (l0 :: rest) right ((l0 :: rest).length + right.length)
      (l0 :: rest).length right.length).reverse)

/-- The per-edit cost used by `impl Distance for &str` (lines 125-128):
`Both {distance, ..} => distance`, anything else 1. -/
def editCost {T : Type} : Edit T → ℚ
  | Edit.extraLeft _ => 1
  | Edit.extraRight _ => 1
  | Edit.both _ _ d => d

/-- `impl Distance for &str` (lines 115-132), on strings as character lists
(`.chars()`): 0 for equal strings, otherwise `1 + (sum of per-edit costs of
the character-level alignment) / max(|a|, |b|)`.  `none` models the panic
`edit_list` raises when `a` is empty (and `a ≠ b`). -/
def strDistance (a b : List Char) : Option ℚ :=
  if a = b then some 0
  else
    (edit_list a b).map fun edits =>
      1 + (edits.map editCost).sum / (max a.length b.length : ℚ)

/-- The left-sequence element carried by an edit, if any (`ExtraLeft` and
`Both` carry one, `ExtraRight` does not). -/
def leftPart {T : Type} : Edit T → Option T
  | Edit.extraLeft l => some l
  | Edit.extraRight _ => none
  | Edit.both l _ _ => some l

/-- The right-sequence element carried by an edit, if any. -/
def rightPart {T : Type} : Edit T → Option T
  | Edit.extraLeft _ => none
  | Edit.extraRight r => some r
  | Edit.both _ r _ => some r

/-- The mirror of an edit: `ExtraLeft` and `ExtraRight` swap, `Both` swaps its
two elements and keeps its cost. -/
def mirrorEdit {T : Type} : Edit T → Edit T
  | Edit.extraLeft l => Edit.extraRight l
  | Edit.extraRight r => Edit.extraLeft r
  | Edit.both l r d => Edit.both r l d

section MinByLemmas

variable {T : Type}

lemma minBy2_cost (a b : TableElement T) : (minBy2 a b).cost = min a.cost b.cost := by
  unfold minBy2
  split_ifs with h
  · exact (min_eq_right h.le).symm
  · exact (min_eq_left (not_lt.mp h)).symm

lemma minBy3_cost (a b c : TableElement T) :
    (minBy3 a b c).cost = min (min a.cost b.cost) c.cost := by
  unfold minBy3
  rw [minBy2_cost, minBy2_cost]

lemma minBy2_eq_or (a b : TableElement T) : minBy2 a b = a ∨ minBy2 a b = b := by
  unfold minBy2
  split_ifs <;> simp

lemma minBy3_eq_or (a b c : TableElement T) :
    minBy3 a b c = a ∨ minBy3 a b c = b ∨ minBy3 a b c = c := by
  unfold minBy3
  rcases minBy2_eq_or (minBy2 a b) c with h | h
  · rw [h]
    rcases minBy2_eq_or a b with h2 | h2 <;> rw [h2] <;> simp
  · rw [h]
    simp

lemma minBy2_eq_left {a b : TableElement T} (h : a.cost ≤ b.cost) : minBy2 a b = a :=
  if_neg (not_lt.mpr h)

lemma minBy2_eq_right {a b : TableElement T} (h : b.cost < a.cost) : minBy2 a b = b :=
  if_pos h

/-- first-minimum tie-break: the delete candidate wins all its ties. -/
lemma minBy3_eq_first {a b c : TableElement T} (h1 : a.cost ≤ b.cost) (h2 : a.cost ≤ c.cost) :
    minBy3 a b c = a := by
  unfold minBy3
  rw [minBy2_eq_left h1, minBy2_eq_left h2]

/-- the insert candidate wins iff strictly below delete and not above align. -/
lemma minBy3_eq_second {a b c : TableElement T} (h1 : b.cost < a.cost) (h2 : b.cost ≤ c.cost) :
    minBy3 a b c = b := by
  unfold minBy3
  rw [minBy2_eq_right h1, minBy2_eq_left h2]

/-- the align candidate wins iff strictly below both earlier candidates. -/
lemma minBy3_eq_third {a b c : TableElement T} (h1 : c.cost < a.cost) (h2 : c.cost < b.cost) :
    minBy3 a b c = c := by
  have h : c.cost < (minBy2 a b).cost := by
    rw [minBy2_cost]
    exact lt_min h1 h2
  exact minBy2_eq_right h

end MinByLemmas

section CellLemmas

variable {T : Type} [Distance T]

lemma cell_zero_zero (l0 : T) (l r : List T) : cell l0 l r 0 0 = ⟨0, Edit.extraLeft l0⟩ := rfl

lemma cell_succ_zero (l0 : T) (l r : List T) (i : Nat) :
    cell l0 l r (i + 1) 0 = ⟨(i : ℚ) + 1, Edit.extraLeft (l.getD i l0)⟩ := rfl

lemma cell_zero_succ (l0 : T) (l r : List T) (j : Nat) :
    cell l0 l r 0 (j + 1) = ⟨(j : ℚ) + 1, Edit.extraRight (r.getD j l0)⟩ := rfl

lemma cell_succ_succ (l0 : T) (l r : List T) (i j : Nat) :
    cell l0 l r (i + 1) (j + 1) =
      minBy3 ⟨1 + (cell l0 l r i (j + 1)).cost, Edit.extraLeft (l.getD i l0)⟩
        ⟨1 + (cell l0 l r (i + 1) j).cost, Edit.extraRight (r.getD j l0)⟩
        ⟨Distance.distance (l.getD i l0) (r.getD j l0) + (cell l0 l r i j).cost,
          Edit.both (l.getD i l0) (r.getD j l0) (Distance.distance (l.getD i l0) (r.getD j l0))⟩ :=
  rfl

lemma cell_cost_left_base (l0 : T) (l r : List T) (i : Nat) :
    (cell l0 l r i 0).cost = (i : ℚ) := by
  cases i with
  | zero => simp [cell_zero_zero]
  | succ n => rw [cell_succ_zero]; push_cast; ring

lemma cell_cost_right_base (l0 : T) (l r : List T) (j : Nat) :
    (cell l0 l r 0 j).cost = (j : ℚ) := by
  cases j with
  | zero => simp [cell_zero_zero]
  | succ n => rw [cell_zero_succ]; push_cast; ring

/-- The three possible outcomes of the minimum at an interior cell, each with
its cost and recorded edit. -/
lemma cell_succ_succ_cases (l0 : T) (l r : List T) (i j : Nat) :
    cell l0 l r (i + 1) (j + 1) =
        ⟨1 + (cell l0 l r i (j + 1)).cost, Edit.extraLeft (l.getD i l0)⟩
      ∨ cell l0 l r (i + 1) (j + 1) =
        ⟨1 + (cell l0 l r (i + 1) j).cost, Edit.extraRight (r.getD j l0)⟩
      ∨ cell l0 l r (i + 1) (j + 1) =
        ⟨Distance.distance (l.getD i l0) (r.getD j l0) + (cell l0 l r i j).cost,
          Edit.both (l.getD i l0) (r.getD j l0)
            (Distance.distance (l.getD i l0) (r.getD j l0))⟩ := by
  rw [cell_succ_succ]
  exact minBy3_eq_or _ _ _

end CellLemmas

section PathLemmas

variable {T : Type} [Distance T]

lemma pathAux_zero_fuel (l0 : T) (l r : List T) (i j : Nat) :
    pathAux l0 l r 0 i j = [] := rfl

lemma pathAux_origin (l0 : T) (l r : List T) (fuel : Nat) :
    pathAux l0 l r (fuel + 1) 0 0 = [] := rfl

lemma pathAux_extraLeft (l0 : T) (l r : List T) (fuel i j : Nat)
    (hne : ¬(i = 0 ∧ j = 0)) (x : T)
    (h : (cell l0 l r i j).last_edit = Edit.extraLeft x) :
    pathAux l0 l r (fuel + 1) i j = Edit.extraLeft x :: pathAux l0 l r fuel (i - 1) j := by
  rw [pathAux, if_neg hne, h]

lemma pathAux_extraRight (l0 : T) (l r : List T) (fuel i j : Nat)
    (hne : ¬(i = 0 ∧ j = 0)) (x : T)
    (h : (cell l0 l r i j).last_edit = Edit.extraRight x) :
    pathAux l0 l r (fuel + 1) i j = Edit.extraRight x :: pathAux l0 l r fuel i (j - 1) := by
  rw [pathAux, if_neg hne, h]

lemma pathAux_both (l0 : T) (l r : List T) (fuel i j : Nat)
    (hne : ¬(i = 0 ∧ j = 0)) (x y : T) (d : ℚ)
    (h : (cell l0 l r i j).last_edit = Edit.both x y d) :
    pathAux l0 l r (fuel + 1) i j = Edit.both x y d :: pathAux l0 l r fuel (i - 1) (j - 1) := by
  rw [pathAux, if_neg hne, h]

lemma reverse_take_succ {α : Type} (xs : List α) (n : Nat) (h : n < xs.length) :
    (xs.take (n + 1)).reverse = xs[n] :: (xs.take n).reverse := by
  rw [List.take_succ, List.getElem?_eq_getElem h]
  simp

/-- Main invariant of the traceback: starting from any in-range cell (i,j)
with enough fuel, the collected path (in push order, i.e. reversed) has
between `max i j` and `i + j` edits, its per-edit costs sum to the cell's
cost, and its left/right elements are exactly the two prefixes of length
`i` resp. `j`, reversed. -/
lemma pathAux_spec (l0 : T) (l r : List T) :
    ∀ fuel i j, i + j ≤ fuel → i ≤ l.length → j ≤ r.length →
      max i j ≤ (pathAux l0 l r fuel i j).length ∧
      (pathAux l0 l r fuel i j).length ≤ i + j ∧
      ((pathAux l0 l r fuel i j).map editCost).sum = (cell l0 l r i j).cost ∧
      (pathAux l0 l r fuel i j).filterMap leftPart = (l.take i).reverse ∧
      (pathAux l0 l r fuel i j).filterMap rightPart = (r.take j).reverse := by
  intro fuel
  induction fuel with
  | zero =>
    intro i j hij hi hj
    have h0 : i = 0 := by omega
    have h1 : j = 0 := by omega
    subst h0; subst h1
    simp [pathAux_zero_fuel, cell_zero_zero]
  | succ fuel ih =>
    intro i j hij hi hj
    cases i with
    | zero =>
      cases j with
      | zero =>
        simp [pathAux_origin, cell_zero_zero]
      | succ j =>
        have hne : ¬((0 : Nat) = 0 ∧ j + 1 = 0) := by simp
        have hedit : (cell l0 l r 0 (j + 1)).last_edit = Edit.extraRight (r.getD j l0) := by
          rw [cell_zero_succ]
        rw [pathAux_extraRight l0 l r fuel 0 (j + 1) hne _ hedit]
        simp only [Nat.add_sub_cancel]
        obtain ⟨ih1, ih2, ih3, ih4, ih5⟩ := ih 0 j (by omega) (by omega) (by omega)
        have hjr : j < r.length := by omega
        refine ⟨?_, ?_, ?_, ?_, ?_⟩
        · simp only [List.length_cons]; omega
        · simp only [List.length_cons]; omega
        · simp only [List.map_cons, List.sum_cons, ih3, editCost]
          rw [cell_cost_right_base, cell_cost_right_base]
          push_cast; ring
        · simp only [List.filterMap_cons, leftPart, ih4]
        · simp only [List.filterMap_cons, rightPart, ih5]
          rw [List.getD_eq_getElem r l0 hjr, reverse_take_succ r j hjr]
    | succ i =>
      cases j with
      | zero =>
        have hne : ¬(i + 1 = 0 ∧ (0 : Nat) = 0) := by simp
        have hedit : (cell l0 l r (i + 1) 0).last_edit = Edit.extraLeft (l.getD i l0) := by
          rw [cell_succ_zero]
        rw [pathAux_extraLeft l0 l r fuel (i + 1) 0 hne _ hedit]
        simp only [Nat.add_sub_cancel]
        obtain ⟨ih1, ih2, ih3, ih4, ih5⟩ := ih i 0 (by omega) (by omega) (by omega)
        have hil : i < l.length := by omega
        refine ⟨?_, ?_, ?_, ?_, ?_⟩
        · simp only [List.length_cons]; omega
        · simp only [List.length_cons]; omega
        · simp only [List.map_cons, List.sum_cons, ih3, editCost]
          rw [cell_cost_left_base, cell_cost_left_base]
          push_cast; ring
        · simp only [List.filterMap_cons, leftPart, ih4]
          rw [List.getD_eq_getElem l l0 hil, reverse_take_succ l i hil]
        · simp only [List.filterMap_cons, rightPart, ih5]
      | succ j =>
        have hne : ¬(i + 1 = 0 ∧ j + 1 = 0) := by simp
        have hil : i < l.length := by omega
        have hjr : j < r.length := by omega
        rcases cell_succ_succ_cases l0 l r i j with hcell | hcell | hcell
        · have hedit : (cell l0 l r (i + 1) (j + 1)).last_edit =
              Edit.extraLeft (l.getD i l0) := by rw [hcell]
          have hcost : (cell l0 l r (i + 1) (j + 1)).cost =
              1 + (cell l0 l r i (j + 1)).cost := by rw [hcell]
          rw [pathAux_extraLeft l0 l r fuel (i + 1) (j + 1) hne _ hedit]
          simp only [Nat.add_sub_cancel]
          obtain ⟨ih1, ih2, ih3, ih4, ih5⟩ := ih i (j + 1) (by omega) (by omega) (by omega)
          refine ⟨?_, ?_, ?_, ?_, ?_⟩
          · simp only [List.length_cons]; omega
          · simp only [List.length_cons]; omega
          · simp only [List.map_cons, List.sum_cons, ih3, editCost]
            rw [hcost]
          · simp only [List.filterMap_cons, leftPart, ih4]
            rw [List.getD_eq_getElem l l0 hil, reverse_take_succ l i hil]
          · simp only [List.filterMap_cons, rightPart, ih5]
        · have hedit : (cell l0 l r (i + 1) (j + 1)).last_edit =
              Edit.extraRight (r.getD j l0) := by rw [hcell]
          have hcost : (cell l0 l r (i + 1) (j + 1)).cost =
              1 + (cell l0 l r (i + 1) j).cost := by rw [hcell]
          rw [pathAux_extraRight l0 l r fuel (i + 1) (j + 1) hne _ hedit]
          simp only [Nat.add_sub_cancel]
          obtain ⟨ih1, ih2, ih3, ih4, ih5⟩ := ih (i + 1) j (by omega) (by omega) (by omega)
          refine ⟨?_, ?_, ?_, ?_, ?_⟩
          · simp only [List.length_cons]; omega
          · simp only [List.length_cons]; omega
          · simp only [List.map_cons, List.sum_cons, ih3, editCost]
            rw [hcost]
          · simp only [List.filterMap_cons, leftPart, ih4]
          · simp only [List.filterMap_cons, rightPart, ih5]
            rw [List.getD_eq_getElem r l0 hjr, reverse_take_succ r j hjr]
        · have hedit : (cell l0 l r (i + 1) (j + 1)).last_edit =
              Edit.both (l.getD i l0) (r.getD j l0)
                (Distance.distance (l.getD i l0) (r.getD j l0)) := by rw [hcell]
          have hcost : (cell l0 l r (i + 1) (j + 1)).cost =
              Distance.distance (l.getD i l0) (r.getD j l0) + (cell l0 l r i j).cost := by
            rw [hcell]
          rw [pathAux_both l0 l r fuel (i + 1) (j + 1) hne _ _ _ hedit]
          simp only [Nat.add_sub_cancel]
          obtain ⟨ih1, ih2, ih3, ih4, ih5⟩ := ih i j (by omega) (by omega) (by omega)
          refine ⟨?_, ?_, ?_, ?_, ?_⟩
          · simp only [List.length_cons]; omega
          · simp only [List.length_cons]; omega
          · simp only [List.map_cons, List.sum_cons, ih3, editCost]
            rw [hcost]
          · simp only [List.filterMap_cons, leftPart, ih4]
            rw [List.getD_eq_getElem l l0 hil, reverse_take_succ l i hil]
          · simp only [List.filterMap_cons, rightPart, ih5]
            rw [List.getD_eq_getElem r l0 hjr, reverse_take_succ r j hjr]

lemma filterMap_reverse {α β : Type} (f : α → Option β) :
    ∀ xs : List α, xs.reverse.filterMap f = (xs.filterMap f).reverse := by
  intro xs
  induction xs with
  | nil => rfl
  | cons x xs ih =>
    rw [List.reverse_cons, List.filterMap_append, ih, List.filterMap_cons]
    cases h : f x <;> simp [List.filterMap_cons, h]

/-- `pathAux_spec` packaged at the corner cell for the actual result of
`edit_list` on a nonempty left sequence. -/
lemma edit_list_spec (l0 : T) (rest right : List T) (es : List (Edit T))
    (h : edit_list (l0 :: rest) right = some es) :
    max (l0 :: rest).length right.length ≤ es.length ∧
      es.length ≤ (l0 :: rest).length + right.length ∧
      (es.map editCost).sum =
        (cell l0 (l0 :: rest) right (l0 :: rest).length right.length).cost ∧
      es.filterMap leftPart = l0 :: rest ∧
      es.filterMap rightPart = right := by
  have hes : es = (pathAux l0 (l0 :: rest) right ((l0 :: rest).length + right.length)
      (l0 :: rest).length right.length).reverse := by
    have := h
    rw [edit_list] at this
    exact (Option.some.injEq _ _ ▸ this).symm
  obtain ⟨h1, h2, h3, h4, h5⟩ := pathAux_spec l0 (l0 :: rest) right
    ((l0 :: rest).length + right.length) (l0 :: rest).length right.length
    (le_refl _) (le_refl _) (le_refl _)
  subst hes
  refine ⟨by simpa using h1, by simpa using h2, ?_, ?_, ?_⟩
  · rw [List.map_reverse, List.sum_reverse]
    exact h3
  · rw [filterMap_reverse, h4, List.take_length, List.reverse_reverse]
  · rw [filterMap_reverse, h5, List.take_length, List.reverse_reverse]

/-- With a nonnegative distance function every table cost is nonnegative. -/
lemma cell_cost_nonneg (l0 : T) (l r : List T)
    (hdn : ∀ x y : T, 0 ≤ Distance.distance x y) :
    ∀ j i, 0 ≤ (cell l0 l r i j).cost := by
  intro j
  induction j with
  | zero =>
    intro i
    rw [cell_cost_left_base]
    positivity
  | succ j ihj =>
    intro i
    induction i with
    | zero =>
      rw [cell_cost_right_base]
      positivity
    | succ i ihi =>
      rw [cell_succ_succ, minBy3_cost]
      dsimp only
      refine le_min (le_min ?_ ?_) ?_
      · linarith [ihi]
      · linarith [ihj (i + 1)]
      · exact add_nonneg (hdn _ _) (ihj i)

/-- On the diagonal of the self-alignment table, when the distance function
satisfies the documented contract (0 on identical elements, nonnegative),
every cost is 0 and every interior diagonal cell records a zero-cost `Both`
edit: the align candidate costs 0 while delete and insert cost at least 1. -/
lemma cell_diag (l0 : T) (s : List T)
    (hd0 : ∀ x : T, Distance.distance x x = 0)
    (hdn : ∀ x y : T, 0 ≤ Distance.distance x y) :
    ∀ i, i ≤ s.length →
      (cell l0 s s i i).cost = 0 ∧
      ∀ i', i = i' + 1 →
        (cell l0 s s i i).last_edit = Edit.both (s.getD i' l0) (s.getD i' l0) 0 := by
  intro i
  induction i with
  | zero =>
    intro _
    refine ⟨by rw [cell_cost_left_base]; norm_num, ?_⟩
    intro i' h
    simp at h
  | succ i ihi =>
    intro hle
    obtain ⟨hc, _⟩ := ihi (by omega)
    have hd : Distance.distance (s.getD i l0) (s.getD i l0) = 0 := hd0 _
    have hthird : cell l0 s s (i + 1) (i + 1) =
        ⟨Distance.distance (s.getD i l0) (s.getD i l0) + (cell l0 s s i i).cost,
          Edit.both (s.getD i l0) (s.getD i l0)
            (Distance.distance (s.getD i l0) (s.getD i l0))⟩ := by
      rw [cell_succ_succ]
      apply minBy3_eq_third
      · dsimp only
        rw [hd, hc]
        linarith [cell_cost_nonneg l0 s s hdn (i + 1) i]
      · dsimp only
        rw [hd, hc]
        linarith [cell_cost_nonneg l0 s s hdn i (i + 1)]
    refine ⟨?_, ?_⟩
    · rw [hthird]
      dsimp only
      rw [hd, hc]
      ring
    · intro i' h
      have hii : i' = i := by omega
      subst hii
      rw [hthird]
      dsimp only
      rw [hd]

/-- The traceback of the self-alignment walks the diagonal, collecting a
zero-cost `Both` edit per element. -/
lemma pathAux_diag (l0 : T) (s : List T)
    (hd0 : ∀ x : T, Distance.distance x x = 0)
    (hdn : ∀ x y : T, 0 ≤ Distance.distance x y) :
    ∀ i fuel, i + i ≤ fuel → i ≤ s.length →
      pathAux l0 s s fuel i i = ((s.take i).map fun y => Edit.both y y 0).reverse := by
  intro i
  induction i with
  | zero =>
    intro fuel _ _
    cases fuel with
    | zero => rfl
    | succ fuel => rfl
  | succ i ihi =>
    intro fuel hfuel hle
    cases fuel with
    | zero => omega
    | succ fuel =>
      have hi : i < s.length := by omega
      have hne : ¬(i + 1 = 0 ∧ i + 1 = 0) := by simp
      obtain ⟨_, hedit⟩ := cell_diag l0 s hd0 hdn (i + 1) hle
      have hed := hedit i rfl
      rw [pathAux_both l0 s s fuel (i + 1) (i + 1) hne _ _ _ hed]
      simp only [Nat.add_sub_cancel]
      rw [ihi fuel (by omega) (by omega)]
      rw [List.getD_eq_getElem s l0 hi]
      rw [List.take_succ, List.getElem?_eq_getElem hi]
      simp
      rw [reverse_take_succ (List.map (fun y => Edit.both y y 0) s) i (by simpa using hi)]
      simp

/-- Self-alignment of a nonempty sequence: one zero-cost `Both` edit per
element, in order. -/
lemma edit_list_diag (x : T) (rest : List T)
    (hd0 : ∀ y : T, Distance.distance y y = 0)
    (hdn : ∀ y z : T, 0 ≤ Distance.distance y z) :
    edit_list (x :: rest) (x :: rest) =
      some ((x :: rest).map fun y => Edit.both y y 0) := by
  rw [edit_list]
  rw [pathAux_diag x (x :: rest) hd0 hdn (x :: rest).length
    ((x :: rest).length + (x :: rest).length) (le_refl _) (le_refl _)]
  rw [List.take_length, List.reverse_reverse]

/-- With a symmetric distance function the cost table of the swapped problem
is the transpose of the original cost table (the recorded edits need not
correspond, because the delete and insert candidates change places in the
tie-breaking order). -/
lemma cell_cost_symm (l0a l0b : T) (a b : List T)
    (hsym : ∀ x y : T, Distance.distance x y = Distance.distance y x) :
    ∀ n i j, i + j ≤ n → i ≤ a.length → j ≤ b.length →
      (cell l0a a b i j).cost = (cell l0b b a j i).cost := by
  intro n
  induction n with
  | zero =>
    intro i j h hi hj
    have h0 : i = 0 := by omega
    have h1 : j = 0 := by omega
    subst h0; subst h1
    rw [cell_cost_left_base, cell_cost_left_base]
  | succ n ihn =>
    intro i j h hi hj
    cases i with
    | zero => rw [cell_cost_right_base, cell_cost_left_base]
    | succ i =>
      cases j with
      | zero => rw [cell_cost_left_base, cell_cost_right_base]
      | succ j =>
        have hil : i < a.length := by omega
        have hjr : j < b.length := by omega
        rw [cell_succ_succ, minBy3_cost, cell_succ_succ, minBy3_cost]
        dsimp only
        rw [ihn i (j + 1) (by omega) (by omega) (by omega),
          ihn (i + 1) j (by omega) (by omega) (by omega),
          ihn i j (by omega) (by omega) (by omega)]
        rw [List.getD_eq_getElem a l0a hil, List.getD_eq_getElem b l0b hjr,
          List.getD_eq_getElem b l0a hjr, List.getD_eq_getElem a l0b hil]
        rw [hsym (a[i]) (b[j])]
        congr 1
        exact min_comm _ _

end PathLemmas

section CharLemmas

lemma char_distance_self (x : Char) : Distance.distance x x = 0 := by
  change (if x = x then (0 : ℚ) else 1) = 0
  simp

lemma char_distance_nonneg (x y : Char) : 0 ≤ Distance.distance x y := by
  change 0 ≤ if x = y then (0 : ℚ) else 1
  split_ifs <;> norm_num

lemma char_distance_symm (x y : Char) : Distance.distance x y = Distance.distance y x := by
  change (if x = y then (0 : ℚ) else 1) = if y = x then (0 : ℚ) else 1
  by_cases h : x = y
  · simp [h]
  · rw [if_neg h, if_neg fun hc => h hc.symm]

end CharLemmas

section ElementsAre

/-- `MatcherResult` from the matcher module (declarations only; the module
itself is not under src/): the two-valued verdict. -/
inductive MatcherResult where
  | Matches
  | DoesNotMatch
  deriving DecidableEq

/-- Modelled from the spec: the `Matcher` capability contract (§6); the
matcher module is not under src/.  Only the two members `ElementsAre` uses
are modelled: `matches` and `explain_match`, the latter as its rendered
text. -/
structure Matcher (T : Type) where
  «matches» : T → MatcherResult
  explain_match : T → String

variable {T : Type}

/-- `ElementsAre::matches` (elements_are_matcher.rs lines 100-112).  The
zipped traversal (`zip` / `has_size_mismatch` from `zipped_iterator`, not
under src/) is modelled from the spec §4.3: pairs are produced while both
sources have elements; once the loop has driven the traversal to completion,
the mismatch flag is set iff one source was exhausted while the other still
had an element.  The loop returns `DoesNotMatch` as soon as a paired
position fails; otherwise the flag decides the verdict. -/
def elementsAreMatches (elements : List (Matcher T)) (actual : List T) : MatcherResult :=
  match actual, elements with
  | a :: actualRest, e :: elemRest =>
    match e.«matches» a with
    | MatcherResult.DoesNotMatch => MatcherResult.DoesNotMatch
    | MatcherResult.Matches => elementsAreMatches elemRest actualRest
  | [], [] => MatcherResult.Matches
  | _, _ => MatcherResult.DoesNotMatch

/-- Modelled from the spec: the Description service's bullet list (§6), with
the `* ` glyph the failure-message golden tests pin down; fragments joined
by newlines. -/
def bulletList (frags : List String) : String :=
  String.intercalate "\n" (frags.map fun f => "* " ++ f)

/-- Modelled from the spec: the Description service's indent transform (§6),
prefixing every line (continuation lines included) with two spaces. -/
def indentBlock (s : String) : String :=
  "  " ++ s.replace "\n" "\n  "

/-- The fragment-collecting loop of `ElementsAre::explain_match` (lines
119-125): drives the zipped traversal to completion, collecting, for each
failing position, `element #<idx> is <value>, <explanation>`.  `dbg` models
the `{a:?}` Debug rendering of an element. -/
def explainFragments (dbg : T → String) :
    List (Matcher T) → List T → Nat → List String
  | e :: elemRest, a :: actualRest, idx =>
    (match e.«matches» a with
      | MatcherResult.DoesNotMatch =>
        ["element #" ++ toString idx ++ " is " ++ dbg a ++ ", " ++ e.explain_match a]
      | MatcherResult.Matches => []) ++
      explainFragments dbg elemRest actualRest (idx + 1)
  | _, _, _ => []

/-- `ElementsAre::explain_match` (lines 114-139).  `actual.length` plays two
roles: it is the `size_hint().0` lower bound of the actual iterator (exact
for a list), and — since the loop above fully drives the zipped traversal —
`has_size_mismatch()` holds afterwards iff the two lengths differ. -/
def elementsAreExplainMatch (dbg : T → String) (elements : List (Matcher T))
    (actual : List T) : String :=
  match explainFragments dbg elements actual 0 with
  | [] =>
    if actual.length = elements.length then "whose elements all match"
    else "whose size is " ++ toString actual.length
  | [m] => "where " ++ m
  | m :: m2 :: ms => "where:\n" ++ indentBlock (bulletList (m :: m2 :: ms))

/-- `explain_match` as the spec sentence phrases it: the fragments are built
by filtering the enumerated, positionally zipped pairs down to the failing
positions and rendering each; then the four output cases. -/
def elementsAreExplainSpec (dbg : T → String) (elements : List (Matcher T))
    (actual : List T) : String :=
  match ((actual.zip elements).enum.filter fun p =>
      p.2.2.«matches» p.2.1 = MatcherResult.DoesNotMatch).map fun p =>
      "element #" ++ toString p.1 ++ " is " ++ dbg p.2.1 ++ ", " ++
        p.2.2.explain_match p.2.1 with
  | [] =>
    if actual.length = elements.length then "whose elements all match"
    else "whose size is " ++ toString actual.length
  | [m] => "where " ++ m
  | m :: m2 :: ms => "where:\n" ++ indentBlock (bulletList (m :: m2 :: ms))

lemma explainFragments_eq (dbg : T → String) :
    ∀ (elements : List (Matcher T)) (actual : List T) (k : Nat),
      explainFragments dbg elements actual k =
        (((actual.zip elements).enumFrom k).filter fun p =>
            p.2.2.«matches» p.2.1 = MatcherResult.DoesNotMatch).map fun p =>
          "element #" ++ toString p.1 ++ " is " ++ dbg p.2.1 ++ ", " ++
            p.2.2.explain_match p.2.1 := by
  intro elements
  induction elements with
  | nil =>
    intro actual k
    cases actual <;> rfl
  | cons e elemRest ih =>
    intro actual k
    cases actual with
    | nil => rfl
    | cons a actualRest =>
      cases hm : e.«matches» a with
      | DoesNotMatch =>
        simp only [explainFragments, hm, List.zip_cons_cons, List.enumFrom_cons,
          List.filter_cons, hm, decide_True, List.map_cons, ih]
        simp [hm]
      | Matches =>
        simp only [explainFragments, hm, List.zip_cons_cons, List.enumFrom_cons,
          List.filter_cons, List.map_cons, ih]
        simp [hm]

end ElementsAre

section Claims

set_option maxRecDepth 10000

attribute [local semireducible] Rat.add Rat.mul Rat.sub Rat.inv

/-- C1: `ElementsAre::matches` returns `Matches` if and only if the actual
container has exactly as many elements as there are position matchers and
the matcher at every position matches the element at that position; in every
other situation — some positionally paired element fails its matcher, or the
zipped traversal reports a size mismatch — it returns `DoesNotMatch` (the
verdict type has only these two values). -/
theorem C1_elementsAre_matches_iff {T : Type} (elements : List (Matcher T))
    (actual : List T) :
    elementsAreMatches elements actual = MatcherResult.Matches ↔
      actual.length = elements.length ∧
        ∀ (i : Nat) (ha : i < actual.length) (he : i < elements.length),
          (elements[i]).«matches» (actual[i]) = MatcherResult.Matches := by
  induction elements generalizing actual with
  | nil =>
    cases actual with
    | nil => simp [elementsAreMatches]
    | cons a actualRest => simp [elementsAreMatches]
  | cons e elemRest ih =>
    cases actual with
    | nil => simp [elementsAreMatches]
    | cons a actualRest =>
      simp only [elementsAreMatches]
      cases hm : e.«matches» a with
      | DoesNotMatch =>
        constructor
        · intro h
          cases h
        · rintro ⟨hlen, hall⟩
          have h0 := hall 0 (by simp) (by simp)
          simp only [List.getElem_cons_zero] at h0
          rw [hm] at h0
          cases h0
      | Matches =>
        rw [ih actualRest]
        constructor
        · rintro ⟨hlen, hall⟩
          refine ⟨by simpa using hlen, ?_⟩
          intro i ha he
          cases i with
          | zero => simpa using hm
          | succ n =>
            have hn := hall n (by simpa using ha) (by simpa using he)
            simpa using hn
        · rintro ⟨hlen, hall⟩
          refine ⟨by simpa using hlen, ?_⟩
          intro i ha he
          have hn := hall (i + 1) (by simpa using ha) (by simpa using he)
          simpa using hn

/-- C2: counter-evidence for the claim that no precondition on emptiness is
required.  For the empty left sequence the code panics (modelled `none`):
the placeholder stored in table cell (0,0) evaluates `left[0]`, an
out-of-bounds index on an empty vector — instead of returning the
all-insertion alignment `[ExtraRight 'a']` the claim requires. -/
theorem C2_empty_left_panics : edit_list ([] : List Char) ['a'] = none := rfl

/-- C3: the alignment table satisfies the Wagner–Fischer invariant: cell
(0,0) costs 0, cell (i,0) costs i, cell (0,j) costs j, and each interior
cell is the minimum of delete (+1), insert (+1) and align (+distance) over
its three predecessors.  `l0` is the placeholder element (`left[0]` in the
code; the table is built only for nonempty left, and the invariant holds
for every choice of `l0`). -/
theorem C3_table_invariant {T : Type} [Distance T] (l0 : T) (left right : List T) :
    (cell l0 left right 0 0).cost = 0 ∧
      (∀ i, 1 ≤ i → i ≤ left.length → (cell l0 left right i 0).cost = (i : ℚ)) ∧
      (∀ j, 1 ≤ j → j ≤ right.length → (cell l0 left right 0 j).cost = (j : ℚ)) ∧
      (∀ i j, 1 ≤ i → 1 ≤ j → i ≤ left.length → j ≤ right.length →
        (cell l0 left right i j).cost =
          min (min ((cell l0 left right (i - 1) j).cost + 1)
              ((cell l0 left right i (j - 1)).cost + 1))
            ((cell l0 left right (i - 1) (j - 1)).cost +
              Distance.distance (left.getD (i - 1) l0) (right.getD (j - 1) l0))) := by
  refine ⟨?_, ?_, ?_, ?_⟩
  · rw [cell_cost_left_base]
    norm_num
  · intro i _ _
    rw [cell_cost_left_base]
  · intro j _ _
    rw [cell_cost_right_base]
  · intro i j hi hj _ _
    obtain ⟨i', rfl⟩ : ∃ i', i = i' + 1 := ⟨i - 1, by omega⟩
    obtain ⟨j', rfl⟩ : ∃ j', j = j' + 1 := ⟨j - 1, by omega⟩
    simp only [Nat.add_sub_cancel]
    rw [cell_succ_succ, minBy3_cost]
    dsimp only
    rw [add_comm (1 : ℚ) (cell l0 left right i' (j' + 1)).cost,
      add_comm (1 : ℚ) (cell l0 left right (i' + 1) j').cost,
      add_comm (Distance.distance (left.getD i' l0) (right.getD j' l0))
        (cell l0 left right i' j').cost]

/-- C3 witness: the recurrence at cell (1,1) of the table for ['a','b'] vs
['c']. -/
theorem C3_witness :
    (cell 'x' ['a', 'b'] ['c'] 1 1).cost =
      min (min ((cell 'x' ['a', 'b'] ['c'] 0 1).cost + 1)
          ((cell 'x' ['a', 'b'] ['c'] 1 0).cost + 1))
        ((cell 'x' ['a', 'b'] ['c'] 0 0).cost +
          Distance.distance (['a', 'b'].getD 0 'x') (['c'].getD 0 'x')) :=
  (C3_table_invariant 'x' ['a', 'b'] ['c']).2.2.2 1 1 (by norm_num) (by norm_num)
    (by norm_num) (by norm_num)

/-- C4: deterministic first-minimum tie-break at every interior cell
(i+1, j+1): the delete candidate is chosen whenever it is ≤ both others (so
it wins all its ties), the insert candidate whenever it is strictly below
delete and ≤ align, and the align candidate only when strictly below both.
This fixes the recorded edit (and hence the output) uniquely, matching the
evaluation order delete-then-insert-then-align of the `min_by` fold. -/
theorem C4_tie_break {T : Type} [Distance T] (l0 : T) (left right : List T) (i j : Nat) :
    ((1 + (cell l0 left right i (j + 1)).cost ≤ 1 + (cell l0 left right (i + 1) j).cost ∧
        1 + (cell l0 left right i (j + 1)).cost ≤
          Distance.distance (left.getD i l0) (right.getD j l0) +
            (cell l0 left right i j).cost) →
      cell l0 left right (i + 1) (j + 1) =
        ⟨1 + (cell l0 left right i (j + 1)).cost, Edit.extraLeft (left.getD i l0)⟩) ∧
    ((1 + (cell l0 left right (i + 1) j).cost < 1 + (cell l0 left right i (j + 1)).cost ∧
        1 + (cell l0 left right (i + 1) j).cost ≤
          Distance.distance (left.getD i l0) (right.getD j l0) +
            (cell l0 left right i j).cost) →
      cell l0 left right (i + 1) (j + 1) =
        ⟨1 + (cell l0 left right (i + 1) j).cost, Edit.extraRight (right.getD j l0)⟩) ∧
    ((Distance.distance (left.getD i l0) (right.getD j l0) + (cell l0 left right i j).cost <
          1 + (cell l0 left right i (j + 1)).cost ∧
        Distance.distance (left.getD i l0) (right.getD j l0) + (cell l0 left right i j).cost <
          1 + (cell l0 left right (i + 1) j).cost) →
      cell l0 left right (i + 1) (j + 1) =
        ⟨Distance.distance (left.getD i l0) (right.getD j l0) + (cell l0 left right i j).cost,
          Edit.both (left.getD i l0) (right.getD j l0)
            (Distance.distance (left.getD i l0) (right.getD j l0))⟩) := by
  refine ⟨fun h => ?_, fun h => ?_, fun h => ?_⟩
  · rw [cell_succ_succ]
    exact minBy3_eq_first h.1 h.2
  · rw [cell_succ_succ]
    exact minBy3_eq_second h.1 h.2
  · rw [cell_succ_succ]
    exact minBy3_eq_third h.1 h.2

/-- C4 witness: a genuine tie.  In the table for ['a','b'] vs ['c'] at cell
(2,1) the delete candidate and the align candidate both cost 2 (insert costs
3); the delete candidate wins the tie and `ExtraLeft 'b'` is recorded. -/
theorem C4_witness :
    cell 'a' ['a', 'b'] ['c'] 2 1 =
      ⟨1 + (cell 'a' ['a', 'b'] ['c'] 1 1).cost, Edit.extraLeft (['a', 'b'].getD 1 'a')⟩ :=
  (C4_tie_break 'a' ['a', 'b'] ['c'] 1 0).1 ⟨by decide, by decide⟩

/-- C5: whenever `edit_list` returns (exactly the nonempty-left inputs), the
result has at least max(|left|,|right|) and at most |left|+|right| edits,
and its total cost (1 per ExtraLeft, 1 per ExtraRight, the recorded distance
per Both — `editCost`) equals the cost stored in table cell
(|left|,|right|). -/
theorem C5_length_and_cost {T : Type} [Distance T] (l0 : T) (rest right : List T)
    (es : List (Edit T)) (h : edit_list (l0 :: rest) right = some es) :
    max (l0 :: rest).length right.length ≤ es.length ∧
      es.length ≤ (l0 :: rest).length + right.length ∧
      (es.map editCost).sum =
        (cell l0 (l0 :: rest) right (l0 :: rest).length right.length).cost := by
  obtain ⟨h1, h2, h3, _, _⟩ := edit_list_spec l0 rest right es h
  exact ⟨h1, h2, h3⟩

/-- C5 witness: `edit_list ['a'] ['b'] = some [Both 'a' 'b' 1]`, of length 1 =
max 1 1 ≤ 1 ≤ 2, with total cost 1 = cell (1,1). -/
theorem C5_witness :
    max (['a'] : List Char).length (['b'] : List Char).length ≤
        ([Edit.both 'a' 'b' 1] : List (Edit Char)).length ∧
      ([Edit.both 'a' 'b' 1] : List (Edit Char)).length ≤
        (['a'] : List Char).length + (['b'] : List Char).length ∧
      (([Edit.both 'a' 'b' 1] : List (Edit Char)).map editCost).sum =
        (cell 'a' ['a'] ['b'] (['a'] : List Char).length (['b'] : List Char).length).cost :=
  C5_length_and_cost 'a' [] ['b'] [Edit.both 'a' 'b' 1] (by decide)

/-- C6: counter-evidence.  For a = "" and b = "a" (unequal strings) the claim
prescribes the value 1 + 1/1 = 2, but the code recursively calls `edit_list`
on the two character sequences and panics on the empty left sequence
(modelled `none`). -/
theorem C6_empty_string_panics : strDistance [] ['a'] = none := rfl

/-- C7: `ElementsAre::explain_match` produces, for every matcher list, actual
container and Debug rendering of elements, exactly what the spec sentence
describes: one fragment `element #i is <value>, <explanation>` per failing
position, then "whose elements all match" (no fragment, no size mismatch),
"whose size is <actual length>" (no fragment, size mismatch), "where
<fragment>" (one fragment), or "where:" plus the indented bullet list (two
or more fragments). -/
theorem C7_explain_match_spec {T : Type} (dbg : T → String)
    (elements : List (Matcher T)) (actual : List T) :
    elementsAreExplainMatch dbg elements actual =
      elementsAreExplainSpec dbg elements actual := by
  unfold elementsAreExplainMatch elementsAreExplainSpec
  rw [explainFragments_eq]
  rfl

/-- C8 counterexample: at s = [] the claim demands the empty all-`Both`
alignment `some []`, but the code panics on the `left[0]` placeholder
(modelled `none`). -/
theorem C8_counterexample :
    edit_list ([] : List Char) [] ≠
      some (([] : List Char).map fun y => Edit.both y y 0) := by
  simp [edit_list]

/-- C8 (amended): for every nonempty sequence s over a distance function
satisfying the documented contract (zero on identical elements, nonnegative
— e.g. the char distance), `edit_list s s` yields exactly one `Both` edit
per element of s, in order, pairing each element with itself at recorded
cost 0.  (For empty s the code panics instead; see the counterexample.) -/
theorem C8_self_alignment {T : Type} [Distance T] (x : T) (rest : List T)
    (hd0 : ∀ y : T, Distance.distance y y = 0)
    (hdn : ∀ y z : T, 0 ≤ Distance.distance y z) :
    edit_list (x :: rest) (x :: rest) =
      some ((x :: rest).map fun y => Edit.both y y 0) :=
  edit_list_diag x rest hd0 hdn

/-- C8 witness: the spec's own example — aligning "hello" with itself gives
five `Both` edits pairing each character with itself, all cost 0. -/
theorem C8_witness :
    edit_list ['h', 'e', 'l', 'l', 'o'] ['h', 'e', 'l', 'l', 'o'] =
      some (['h', 'e', 'l', 'l', 'o'].map fun y => Edit.both y y 0) :=
  C8_self_alignment 'h' ['e', 'l', 'l', 'o'] char_distance_self char_distance_nonneg

/-- C9 counterexample: the char distance is symmetric, yet the two opposite
alignments of "ab" and "ba" are not mirrors of each other: mirroring
`edit_list ['a','b'] ['b','a']` = [ExtraRight 'b', Both('a','a',0),
ExtraLeft 'b'] gives [ExtraLeft 'b', Both('a','a',0), ExtraRight 'b'], while
`edit_list ['b','a'] ['a','b']` = [ExtraRight 'a', Both('b','b',0),
ExtraLeft 'a'] — the three-way cost tie at the corner cell is broken towards
the delete candidate in both orientations. -/
theorem C9_counterexample :
    (edit_list ['a', 'b'] ['b', 'a']).map (List.map mirrorEdit) ≠
      edit_list ['b', 'a'] ['a', 'b'] := by
  decide

/-- C9 (amended): with a symmetric distance function, the two opposite
alignments (on inputs where `edit_list` returns, i.e. nonempty) have
identical total cost — the two cost tables are transposes of each other.
The edit sequences themselves need not be mirrored: cost ties are broken
towards the delete candidate in both orientations (see the
counterexample). -/
theorem C9_cost_symm {T : Type} [Distance T]
    (hsym : ∀ x y : T, Distance.distance x y = Distance.distance y x)
    (a0 b0 : T) (ra rb : List T) (es fs : List (Edit T))
    (h1 : edit_list (a0 :: ra) (b0 :: rb) = some es)
    (h2 : edit_list (b0 :: rb) (a0 :: ra) = some fs) :
    (es.map editCost).sum = (fs.map editCost).sum := by
  obtain ⟨_, _, hs1, _, _⟩ := edit_list_spec a0 ra (b0 :: rb) es h1
  obtain ⟨_, _, hs2, _, _⟩ := edit_list_spec b0 rb (a0 :: ra) fs h2
  rw [hs1, hs2]
  exact cell_cost_symm a0 b0 (a0 :: ra) (b0 :: rb) hsym
    ((a0 :: ra).length + (b0 :: rb).length) (a0 :: ra).length (b0 :: rb).length
    (le_refl _) (le_refl _) (le_refl _)

/-- C9 witness: the two opposite alignments of "ab" and "ba" (the
counterexample pair) both have total cost 2. -/
theorem C9_witness :
    (([Edit.extraRight 'b', Edit.both 'a' 'a' 0, Edit.extraLeft 'b'] :
        List (Edit Char)).map editCost).sum =
      (([Edit.extraRight 'a', Edit.both 'b' 'b' 0, Edit.extraLeft 'a'] :
        List (Edit Char)).map editCost).sum :=
  C9_cost_symm char_distance_symm 'a' 'b' ['b'] ['a']
    [Edit.extraRight 'b', Edit.both 'a' 'a' 0, Edit.extraLeft 'b']
    [Edit.extraRight 'a', Edit.both 'b' 'b' 0, Edit.extraLeft 'a']
    (by decide) (by decide)

/-- C10: whenever `edit_list` returns, the result reconstructs both inputs:
the left elements carried by its ExtraLeft and Both edits, in output order,
are exactly the left input, and the right elements carried by its ExtraRight
and Both edits are exactly the right input. -/
theorem C10_reconstruction {T : Type} [Distance T] (l0 : T) (rest right : List T)
    (es : List (Edit T)) (h : edit_list (l0 :: rest) right = some es) :
    es.filterMap leftPart = l0 :: rest ∧ es.filterMap rightPart = right := by
  obtain ⟨_, _, _, h4, h5⟩ := edit_list_spec l0 rest right es h
  exact ⟨h4, h5⟩

/-- C10 witness: `edit_list ['a','b'] ['c'] = some [Both('a','c',1),
ExtraLeft 'b']`, whose left parts are ['a','b'] and right parts ['c']. -/
theorem C10_witness :
    ([Edit.both 'a' 'c' 1, Edit.extraLeft 'b'] : List (Edit Char)).filterMap leftPart =
        ['a', 'b'] ∧
      ([Edit.both 'a' 'c' 1, Edit.extraLeft 'b'] : List (Edit Char)).filterMap rightPart =
        ['c'] :=
  C10_reconstruction 'a' ['b'] ['c'] [Edit.both 'a' 'c' 1, Edit.extraLeft 'b'] (by decide)

end Claims

end GoogletestRust
